import Mathlib

/-
  Verification of the repository & sub-project lifecycle manager of the
  greece_test_addon repository.

  The definitions below are shallow embeddings of the TypeScript sources:
  external collaborators (the node filesystem, child_process.exec, simple-git,
  the WinCC OA manager and the GitHub API) are passed in as function-valued
  parameters (oracles), while every decision made by the repository's own code
  is translated literally.
-/

set_option maxHeartbeats 1000000

/- ======================= Definitions ======================= -/

/-- The three classification tiers for an exit code (spec section 4.4; in the
source the three tiers are the three branches of AsciiManager.import). -/
inductive ExitClassification where
  | Success : ExitClassification
  | Warning : ExitClassification
  | Error : ExitClassification
deriving DecidableEq

/-- Exit codes considered successful (AsciiManager.SUCCESS_EXIT_CODES). -/
def successExitCodes : List Int := [0]

/-- Exit codes considered warnings (AsciiManager.WARNING_EXIT_CODES). -/
def warningExitCodes : List Int := [55]

/-- The exit-code classification chain of AsciiManager.import: first the
success-codes membership test, then the warning-codes membership test, and
every other code is an error. The two code sets are the caller-supplied
parameters of the spec's ExitClassifier contract; AsciiManager.import passes
its two class constants. -/
def classify (exitCode : Int) (successCodes warningCodes : List Int) :
    ExitClassification :=
  if exitCode ∈ successCodes then ExitClassification.Success
  else if exitCode ∈ warningCodes then ExitClassification.Warning
  else ExitClassification.Error

/-- The boolean returned by AsciiManager.import for a given exit code:
true for the success and warning tiers, false for the error tier. -/
def asciiImportReturn (exitCode : Int) : Bool :=
  match classify exitCode successExitCodes warningExitCodes with
  | ExitClassification.Success => true
  | ExitClassification.Warning => true
  | ExitClassification.Error => false

/-- The result record built by CommandExecutor.execute (CommandResult.ts). -/
structure CommandResult where
  command : String
  workingDirectory : String
  exitCode : Int
  message : String
  stderr : String
  stdout : String
deriving DecidableEq

/-- Model of the node error object passed to the child_process.exec callback:
the numeric exit code is absent (undefined) when the process was terminated by
a signal or could not be spawned. -/
structure ExecError where
  code : Option Int
  message : String
deriving DecidableEq

/-- Model of the data the child_process.exec callback receives. -/
structure ExecOutcome where
  err : Option ExecError
  stdout : String
  stderr : String
deriving DecidableEq

/-- CommandExecutor.execute: runs the command through the exec oracle and
packages the callback data into a CommandResult. Mirrors the source field by
field: exitCode is err.code when defined, otherwise 0; message is err.message
when an error object is present, otherwise the empty string. The promise is
always resolved, never rejected, which the embedding renders by totality. -/
def CommandExecutor.execute (exec : String → Option String → ExecOutcome)
    (command : String) (cwd : Option String) : CommandResult :=
  let o := exec command cwd
  { command := command
    workingDirectory :=
      match cwd with
      | some c => c
      | none => "Not specified (using current directory)"
    exitCode :=
      match o.err with
      | some e =>
        match e.code with
        | some c => c
        | none => 0
      | none => 0
    message :=
      match o.err with
      | some e => e.message
      | none => ""
    stderr := o.stderr
    stdout := o.stdout }

/-- The value returned by winccoa.getPaths() as seen by the defensive
Array.isArray check of PathResolver: either an array of strings or some
non-array value. -/
inductive OaPathsValue where
  | arr : List String → OaPathsValue
  | nonArray : OaPathsValue
deriving DecidableEq

/-- Model of the WinCC OA manager instance as used by PathResolver. -/
structure WinccoaManagerModel where
  getPaths : OaPathsValue

/-- PathResolver.getProjectPath: empty string when the manager instance is
missing or getPaths() is not an array of at least two entries; otherwise the
normalized first entry. path.normalize is an external library call, passed in
as the oracle `normalize`. -/
def PathResolver.getProjectPath (normalize : String → String)
    (winccoa : Option WinccoaManagerModel) : String :=
  match winccoa with
  | none => ""
  | some m =>
    match m.getPaths with
    | OaPathsValue.nonArray => ""
    | OaPathsValue.arr paths =>
      if paths.length < 2 then "" else normalize (paths.getD 0 "")

/-- PathResolver.getInstallationPath: same guards as getProjectPath, but
returns the normalized last entry of the paths array. -/
def PathResolver.getInstallationPath (normalize : String → String)
    (winccoa : Option WinccoaManagerModel) : String :=
  match winccoa with
  | none => ""
  | some m =>
    match m.getPaths with
    | OaPathsValue.nonArray => ""
    | OaPathsValue.arr paths =>
      if paths.length < 2 then "" else normalize (paths.getD (paths.length - 1) "")

/-- A concrete exec oracle whose process fails without a numeric exit code
(node delivers such an error object when the child is killed by a signal or
cannot be spawned: err is set but err.code is undefined). -/
def signalKilledExec : String → Option String → ExecOutcome :=
  fun _ _ =>
    { err := some { code := none, message := "Command was killed by a signal" }
      stdout := ""
      stderr := "" }

/-- The characters after the last slash of a character list (empty when the
list ends in a slash or is empty). -/
def afterLastSlash (cs : List Char) : List Char :=
  (cs.reverse.takeWhile (fun c => c != '/')).reverse

/-- Strip one trailing ".git" from a segment, but only when a non-empty group
remains: this is the semantics of the non-greedy capture in the source regex,
which must capture at least one character before the optional ".git". -/
def stripDotGit (seg : List Char) : List Char :=
  if ".git".data.isSuffixOf seg then
    if 4 < seg.length then seg.take (seg.length - 4) else seg
  else seg

/-- AddOnHandler.extractRepoNameFromUrl: the source matches the regex
for a slash followed by a non-empty run of non-slash characters and an
optional trailing ".git" at the end of the URL; on a match it returns the
captured group, otherwise the time-based fallback name. Date.now() is the
external clock, passed in as `now`. -/
def extractRepoNameFromUrl (url : String) (now : Nat) : String :=
  if url.data.contains '/' && !(afterLastSlash url.data).isEmpty then
    String.mk (stripDotGit (afterLastSlash url.data))
  else "repo-" ++ toString now

/-- Simplified POSIX model of node path.isAbsolute: absolute iff the path
starts with a slash. -/
def pathIsAbsolute (p : String) : Bool :=
  match p.data with
  | [] => false
  | c :: _ => c == '/'

/-- Simplified POSIX model of node path.flatten of a directory and a
separator-free name: concatenation with a single slash. -/
def pathJoin (a b : String) : String := a ++ "/" ++ b

/-- Simplified POSIX model of node path.resolve(p) against the current
working directory: an absolute path is kept, a relative one is appended to
the working directory. -/
def pathResolveFrom (cwd p : String) : String :=
  if pathIsAbsolute p then p else cwd ++ "/" ++ p

/-- Simplified POSIX model of node path.resolve(dir, name) for an absolute
dir: an absolute name is kept, a relative one is appended to dir. -/
def pathResolveTwo (dir name : String) : String :=
  if pathIsAbsolute name then name else dir ++ "/" ++ name

/-- Simplified POSIX model of node path.basename: the last path component,
ignoring trailing slashes. -/
def pathBasename (p : String) : String :=
  let cs := p.data.reverse.dropWhile (fun c => c == '/')
  String.mk ((cs.takeWhile (fun c => c != '/')).reverse)

/-- Simplified POSIX model of node path.dirname: everything before the last
slash, with the root and no-slash special cases. -/
def pathDirname (p : String) : String :=
  let cs := p.data
  if cs.contains '/' then
    let pre := (cs.reverse.dropWhile (fun c => c != '/')).drop 1
    if pre.isEmpty then "/" else String.mk pre.reverse
  else "."

/-- The filesystem predicates consulted by AddOnHandler.cloneRepository:
fs.existsSync and statSync(..).isDirectory(). -/
structure FileSystem where
  existsSync : String → Bool
  isDirectory : String → Bool

/-- The target-directory decision tree of AddOnHandler.cloneRepository for an
already-absolutized hint: if the path is an existing directory, it is the
repository itself when it holds a .git marker, otherwise a container the repo
name (taken from the URL) is appended to; a path that does not exist or is
not a directory is used as-is. In the source this tree appears twice,
verbatim, once for absolute and once for relative hints; this definition is
that shared tree. Returns (fullPath, repoName). -/
def resolveHintDir (fs : FileSystem) (url : String) (now : Nat)
    (resolvedPath : String) : String × String :=
  if fs.existsSync resolvedPath && fs.isDirectory resolvedPath then
    if fs.existsSync (pathJoin resolvedPath ".git") then
      (resolvedPath, pathBasename resolvedPath)
    else
      let repoName := extractRepoNameFromUrl url now
      (pathJoin resolvedPath repoName, repoName)
  else
    (resolvedPath, pathBasename resolvedPath)

/-- The full target resolution of AddOnHandler.cloneRepository (its first
half): with a hint, the hint is used as-is when absolute and resolved against
the current working directory when relative, then fed to the shared decision
tree; with no hint, the repo name comes from the URL and the path from the
default directory. Returns (fullPath, repoName). -/
def resolveTarget (fs : FileSystem) (cwd defaultDirectory url : String)
    (targetDirectory : Option String) (now : Nat) : String × String :=
  match targetDirectory with
  | some targetDir =>
    if pathIsAbsolute targetDir then
      resolveHintDir fs url now targetDir
    else
      resolveHintDir fs url now (pathResolveFrom cwd targetDir)
  | none =>
    let repoName := extractRepoNameFromUrl url now
    (pathResolveTwo defaultDirectory repoName, repoName)

/-- The concrete filesystem of the spec scenario: /existing/plainDir exists
and is a directory, and holds no .git marker. -/
def plainDirFs : FileSystem :=
  { existsSync := fun p => p == "/existing/plainDir"
    isDirectory := fun p => p == "/existing/plainDir" }

/-- The summary simple-git returns from a pull (changes, insertions,
deletions, touched files). -/
structure PullSummary where
  changes : Nat
  insertions : Nat
  deletions : Nat
  files : List String
deriving DecidableEq

/-- The externally visible operations cloneRepository performs, in order.
A gitPull action carries the summary the collaborator reported for it, which
the source then logs (the reported change statistics). -/
inductive RepoAction where
  | mkdirRecursive : String → RepoAction
  | gitClone : String → String → String → List String → RepoAction
  | gitPull : String → PullSummary → RepoAction
deriving DecidableEq

/-- The value cloneRepository resolves with: the full path of the working
copy and the manifest content (null when absent or unparseable). -/
structure CloneOutcome where
  path : String
  fileContent : Option String
deriving DecidableEq

/-- AddOnHandler.readWinCCOAPackageJson: probes package.winccoa.json at the
repository root; when present and parseable the parsed document is
re-serialized canonically; a missing file, a failing read or a parse error
all yield null (the try/catch in the source). JSON.parse and JSON.stringify
are the external codec, passed in as parse and serialize over an abstract
document type J; a read that throws is a readFile result of none. -/
def readWinCCOAPackageJson {J : Type} (fs : FileSystem)
    (readFile : String → Option String) (parse : String → Option J)
    (serialize : J → String) (repositoryPath : String) : Option String :=
  if fs.existsSync (pathJoin repositoryPath "package.winccoa.json") then
    match readFile (pathJoin repositoryPath "package.winccoa.json") with
    | some content =>
      match parse content with
      | some parsed => some (serialize parsed)
      | none => none
    | none => none
  else none

/-- AddOnHandler.cloneRepository, second half: after target resolution, an
existing fullPath only gets a pull; a missing one gets the parent directory
created when absent, a clone of the URL into repoName under the parent
(restricted to the branch when supplied) and then an immediate pull of the
fresh copy. Both paths finish by probing the manifest. Returns the outcome
and the ordered list of performed operations. The pull collaborator is the
oracle pull; the catch-and-reclassify of collaborator failures in the source
wraps error messages only and is outside these operations. -/
def cloneRepository {J : Type} (fs : FileSystem) (cwd defaultDirectory : String)
    (pull : String → PullSummary) (readFile : String → Option String)
    (parse : String → Option J) (serialize : J → String) (cloneUrl : String)
    (targetDirectory : Option String) (branch : Option String) (now : Nat) :
    CloneOutcome × List RepoAction :=
  let resolved := resolveTarget fs cwd defaultDirectory cloneUrl targetDirectory now
  let fullPath := resolved.1
  let repoName := resolved.2
  if fs.existsSync fullPath then
    ({ path := fullPath
       fileContent := readWinCCOAPackageJson fs readFile parse serialize fullPath },
     [RepoAction.gitPull fullPath (pull fullPath)])
  else
    let parentDir := pathDirname fullPath
    let mkdirActions :=
      if fs.existsSync parentDir then [] else [RepoAction.mkdirRecursive parentDir]
    let cloneOptions :=
      match branch with
      | some b => ["--branch", b]
      | none => []
    ({ path := fullPath
       fileContent := readWinCCOAPackageJson fs readFile parse serialize fullPath },
     mkdirActions ++
       [RepoAction.gitClone parentDir cloneUrl repoName cloneOptions,
        RepoAction.gitPull fullPath (pull fullPath)])

/-- The start mode of a manager (AddonConfig.ts). -/
inductive StartMode where
  | always : StartMode
  | manual : StartMode
  | once : StartMode
  | unknown : StartMode
deriving DecidableEq

/-- A configured manager (AddonConfig.ts). -/
structure ManagerConfig where
  Name : String
  StartMode : StartMode
  Options : String
deriving DecidableEq

/-- The caller-supplied sub-project configuration (AddonConfig.ts); the
Managers, Dplists and UpdateScripts fields are optional in the source. -/
structure AddonConfig where
  RepoName : String
  Keywords : List String
  Subproject : String
  Version : String
  Description : String
  OaVersion : String
  Managers : Option (List ManagerConfig)
  Dplists : Option (List String)
  UpdateScripts : Option (List String)
deriving DecidableEq

/-- The manager-attachment loop of registerSubProject: each addManager call
is awaited in listed order with no try/catch around it, so a throwing call
aborts the loop and propagates. Returns the managers whose attachment was
attempted, in order, with the first error when one occurred. -/
def attachLoop (addManager : ManagerConfig → Except String Unit) :
    List ManagerConfig → List ManagerConfig × Option String
  | [] => ([], none)
  | m :: ms =>
    match addManager m with
    | Except.ok _ =>
      let rest := attachLoop addManager ms
      (m :: rest.1, rest.2)
    | Except.error e => ([m], some e)

/-- AddOnHandler.registerSubProject: the registerSubProj control script call,
then NodeInstaller.installAndBuild, then the sequential manager-attachment
loop over config.Managers (empty when the field is absent). The control
script and the installer are the awaited collaborators, modelled as oracles
whose rejection is an Except error; a rejection anywhere propagates. Returns
the overall result and the managers whose attachment was attempted. -/
def registerSubProject (startRegisterSubProj : String → Except String Int)
    (installAndBuild : String → Except String Unit)
    (addManager : ManagerConfig → Except String Unit)
    (path : String) (config : AddonConfig) :
    Except String Int × List ManagerConfig :=
  match startRegisterSubProj path with
  | Except.error e => (Except.error e, [])
  | Except.ok ret =>
    match installAndBuild path with
    | Except.error e => (Except.error e, [])
    | Except.ok _ =>
      match attachLoop addManager (config.Managers.getD []) with
      | (attempted, none) => (Except.ok ret, attempted)
      | (attempted, some e) => (Except.error e, attempted)

/-- Manager A of the counterexample configuration. -/
def mgrA : ManagerConfig :=
  { Name := "A", StartMode := StartMode.always, Options := "" }

/-- Manager B of the counterexample configuration. -/
def mgrB : ManagerConfig :=
  { Name := "B", StartMode := StartMode.always, Options := "" }

/-- A two-manager configuration [A, B]. -/
def cfgAB : AddonConfig :=
  { RepoName := "demo", Keywords := [], Subproject := "", Version := "1.0.0",
    Description := "", OaVersion := "", Managers := some [mgrA, mgrB],
    Dplists := some [], UpdateScripts := some [] }

/-- An attachment collaborator that throws for manager A and succeeds for
every other manager. -/
def attachThrowsOnA : ManagerConfig → Except String Unit :=
  fun m => if m.Name = "A" then Except.error "attach failed" else Except.ok ()

/-- NodeInstaller.runCommand: joins the command and arguments with spaces,
runs the result through CommandExecutor.execute in the given directory and
throws (returns an error) when the exit code is non-zero; any non-zero exit
is fatal, there is no warning tier here. -/
def NodeInstaller.runCommand (exec : String → Option String → ExecOutcome)
    (cmd : String) (args : List String) (cwd : String) : Except String Unit :=
  let result := CommandExecutor.execute exec
    (String.intercalate " " (cmd :: args)) (some cwd)
  if result.exitCode ≠ 0 then
    Except.error (cmd ++ " " ++ String.intercalate " " args ++
      " failed with code " ++ toString result.exitCode ++ "\n" ++ result.stderr)
  else Except.ok ()

/-- The per-directory loop of NodeInstaller.installAndBuild: npm install then
npx tsc in each discovered directory, each awaited with no try/catch, so the
first failing command aborts the loop and its error propagates. Returns the
result and the directories whose processing was attempted, in order. -/
def installAndBuildDirs (exec : String → Option String → ExecOutcome) :
    List String → Except String Unit × List String
  | [] => (Except.ok (), [])
  | d :: rest =>
    match NodeInstaller.runCommand exec "npm" ["install"] d with
    | Except.error e => (Except.error e, [d])
    | Except.ok _ =>
      match NodeInstaller.runCommand exec "npx" ["tsc"] d with
      | Except.error e => (Except.error e, [d])
      | Except.ok _ =>
        let res := installAndBuildDirs exec rest
        (res.1, d :: res.2)

/-- NodeInstaller.installAndBuild: discovers the package.json directories
under projDir/javascript and runs the install/build loop over them. The
recursive filesystem walk findPackageDirs is the external directory
discovery, passed in as an oracle because the claims quantify over the list
of discovered manifest directories. -/
def NodeInstaller.installAndBuild (exec : String → Option String → ExecOutcome)
    (findPackageDirs : String → List String) (projDir : String) :
    Except String Unit × List String :=
  installAndBuildDirs exec (findPackageDirs (projDir ++ "/javascript"))

/-- An exec oracle that fails with exit code 1 for any command run in /a and
succeeds elsewhere. -/
def execFailsInDirA : String → Option String → ExecOutcome :=
  fun _ cwd =>
    if cwd = some "/a" then
      { err := some { code := some 1, message := "Command failed: npm install" }
        stdout := ""
        stderr := "build error" }
    else { err := none, stdout := "", stderr := "" }

/-- The pagination loop of listOrganizationRepositories: starting at the
given page with fuel many loop iterations still allowed (the while condition
page less-or-equal maxPages is fuel positive), each iteration fetches the
page, appends its projected records, and continues iff the page was exactly
full (response.data.length === perPage). The remote API is the oracle pages;
the per-record normalization of the source is the projection proj. Returns
the accumulated records and the requested page numbers in fetch order. -/
def listPagesAux {α β : Type} (pages : Nat → List α) (proj : α → β)
    (perPage : Nat) : Nat → Nat → List β × List Nat
  | _, 0 => ([], [])
  | page, fuel + 1 =>
    if (pages page).length = perPage then
      let rest := listPagesAux pages proj perPage (page + 1) fuel
      ((pages page).map proj ++ rest.1, page :: rest.2)
    else ((pages page).map proj, [page])

/-- AddOnHandler.listOrganizationRepositories: pages from page 1 with the
defaults perPage 100 and maxPages 10 applied when the options are absent. -/
def listOrganizationRepositories {α β : Type} (pages : Nat → List α)
    (proj : α → β) (perPage maxPages : Option Nat) : List β × List Nat :=
  listPagesAux pages proj (perPage.getD 100) 1 (maxPages.getD 10)

/- ======================= Theorems ======================= -/

/-- Claim C3: exit-code classification is pure and total: for every integer
exit code and caller-supplied success and warning sets, classify returns
exactly one of Success, Warning, Error; it returns Success iff the code is in
the success set, Warning iff it is in the warning set and not the success set,
and Error iff it is in neither; with the source's sets [0] and [55], code 0 is
Success, 55 is Warning and 1 is Error. -/
theorem classify_pure_total_chain (e : Int) (S W : List Int) :
    (classify e S W = ExitClassification.Success ∨
     classify e S W = ExitClassification.Warning ∨
     classify e S W = ExitClassification.Error) ∧
    (classify e S W = ExitClassification.Success ↔ e ∈ S) ∧
    (classify e S W = ExitClassification.Warning ↔ e ∉ S ∧ e ∈ W) ∧
    (classify e S W = ExitClassification.Error ↔ e ∉ S ∧ e ∉ W) ∧
    classify 0 successExitCodes warningExitCodes = ExitClassification.Success ∧
    classify 55 successExitCodes warningExitCodes = ExitClassification.Warning ∧
    classify 1 successExitCodes warningExitCodes = ExitClassification.Error := by
  unfold classify successExitCodes warningExitCodes
  by_cases hS : e ∈ S <;> by_cases hW : e ∈ W <;>
    simp [hS, hW]

/-- Claim C9, counterexample: an execution failure (an error object is
present) for which the produced CommandResult has exitCode 0, not a non-zero
exit code; the error's message is still captured. This refutes the claim that
every execution failure is captured with a non-zero exitCode. -/
theorem execute_failure_with_zero_exitCode :
    (signalKilledExec "npm install" none).err.isSome = true ∧
    (CommandExecutor.execute signalKilledExec "npm install" none).exitCode = 0 ∧
    (CommandExecutor.execute signalKilledExec "npm install" none).message =
      "Command was killed by a signal" := by
  refine ⟨rfl, rfl, rfl⟩

/-- Claim C9 as amended: CommandExecutor.execute always resolves with a
CommandResult (totality of the embedding); when exec reports no error object
the result has exitCode 0 and an empty message; when exec reports an error
object the error's message is captured and exitCode is the error's numeric
code when one is present, defaulting to 0 when the error carries none. -/
theorem execute_always_resolves (exec : String → Option String → ExecOutcome)
    (command : String) (cwd : Option String) :
    ((exec command cwd).err = none →
      (CommandExecutor.execute exec command cwd).exitCode = 0 ∧
      (CommandExecutor.execute exec command cwd).message = "") ∧
    (∀ e, (exec command cwd).err = some e →
      (CommandExecutor.execute exec command cwd).message = e.message ∧
      (CommandExecutor.execute exec command cwd).exitCode =
        (match e.code with
         | some c => c
         | none => 0)) ∧
    (CommandExecutor.execute exec command cwd).command = command ∧
    (CommandExecutor.execute exec command cwd).stdout = (exec command cwd).stdout ∧
    (CommandExecutor.execute exec command cwd).stderr = (exec command cwd).stderr := by
  refine ⟨fun h => ?_, fun e h => ?_, rfl, rfl, rfl⟩
  · unfold CommandExecutor.execute
    simp only [h]
    constructor <;> first | rfl | trivial
  · unfold CommandExecutor.execute
    simp only [h]
    constructor <;> first | rfl | trivial

/-- Witness for the amended C9 theorem at a concrete oracle: an error object
with numeric code 127 is captured as exitCode 127 with its message. -/
theorem execute_always_resolves_witness :
    (CommandExecutor.execute
        (fun _ _ =>
          { err := some { code := some 127, message := "not found" }
            stdout := ""
            stderr := "sh: nope" })
        "nope" (some "/tmp")).message = "not found" ∧
    (CommandExecutor.execute
        (fun _ _ =>
          { err := some { code := some 127, message := "not found" }
            stdout := ""
            stderr := "sh: nope" })
        "nope" (some "/tmp")).exitCode = 127 := by
  have h := execute_always_resolves
    (fun _ _ =>
      { err := some { code := some 127, message := "not found" }
        stdout := ""
        stderr := "sh: nope" })
    "nope" (some "/tmp")
  have h2 := h.2.1 { code := some 127, message := "not found" } rfl
  exact ⟨h2.1, h2.2⟩

/-- Claim C10: PathResolver.getProjectPath and getInstallationPath are total
(the embedding never fails): they return the empty string when the manager
instance is missing or getPaths() is not an array of at least two entries,
and otherwise return the normalized first respectively normalized last entry
of the array. -/
theorem pathResolver_paths_guarded (normalize : String → String)
    (winccoa : Option WinccoaManagerModel) :
    (winccoa = none →
      PathResolver.getProjectPath normalize winccoa = "" ∧
      PathResolver.getInstallationPath normalize winccoa = "") ∧
    (∀ m, winccoa = some m → m.getPaths = OaPathsValue.nonArray →
      PathResolver.getProjectPath normalize winccoa = "" ∧
      PathResolver.getInstallationPath normalize winccoa = "") ∧
    (∀ m ps, winccoa = some m → m.getPaths = OaPathsValue.arr ps → ps.length < 2 →
      PathResolver.getProjectPath normalize winccoa = "" ∧
      PathResolver.getInstallationPath normalize winccoa = "") ∧
    (∀ m ps, winccoa = some m → m.getPaths = OaPathsValue.arr ps → 2 ≤ ps.length →
      PathResolver.getProjectPath normalize winccoa = normalize (ps.getD 0 "") ∧
      PathResolver.getInstallationPath normalize winccoa =
        normalize (ps.getD (ps.length - 1) "")) := by
  refine ⟨fun h => ?_, fun m h hp => ?_, fun m ps h hp hlen => ?_, fun m ps h hp hlen => ?_⟩
  · subst h
    exact ⟨rfl, rfl⟩
  · subst h
    unfold PathResolver.getProjectPath PathResolver.getInstallationPath
    simp only [hp]
    constructor <;> first | rfl | trivial
  · subst h
    unfold PathResolver.getProjectPath PathResolver.getInstallationPath
    simp only [hp]
    rw [if_pos hlen, if_pos hlen]
    exact ⟨rfl, rfl⟩
  · subst h
    unfold PathResolver.getProjectPath PathResolver.getInstallationPath
    simp only [hp]
    rw [if_neg (by omega), if_neg (by omega)]
    exact ⟨rfl, rfl⟩

/-- Witness for the C10 theorem at a concrete manager whose paths array is
the two entries of a project and installation path. -/
theorem pathResolver_paths_guarded_witness :
    PathResolver.getProjectPath id
        (some { getPaths := OaPathsValue.arr ["/proj", "/inst"] }) = "/proj" ∧
    PathResolver.getInstallationPath id
        (some { getPaths := OaPathsValue.arr ["/proj", "/inst"] }) = "/inst" := by
  have h := pathResolver_paths_guarded id
    (some { getPaths := OaPathsValue.arr ["/proj", "/inst"] })
  have h4 := h.2.2.2 { getPaths := OaPathsValue.arr ["/proj", "/inst"] }
    ["/proj", "/inst"] rfl rfl (by decide)
  exact ⟨h4.1, h4.2⟩

/-- Claim C4: the target-resolution decision tree of cloneRepository for a
given hint. Writing habs for the hint made absolute (a relative hint resolved
against the current working directory): if habs is an existing directory with
a .git marker, fullPath is habs and repoName its basename; if it is an
existing directory without the marker, repoName comes from the URL and
fullPath is habs/repoName; if habs does not exist or is not a directory it is
used verbatim with repoName its basename. -/
theorem resolveTarget_decision_tree (fs : FileSystem)
    (cwd defaultDirectory url hint : String) (now : Nat) :
    (fs.existsSync (pathResolveFrom cwd hint) = true →
      fs.isDirectory (pathResolveFrom cwd hint) = true →
      fs.existsSync (pathJoin (pathResolveFrom cwd hint) ".git") = true →
      resolveTarget fs cwd defaultDirectory url (some hint) now =
        (pathResolveFrom cwd hint, pathBasename (pathResolveFrom cwd hint))) ∧
    (fs.existsSync (pathResolveFrom cwd hint) = true →
      fs.isDirectory (pathResolveFrom cwd hint) = true →
      fs.existsSync (pathJoin (pathResolveFrom cwd hint) ".git") = false →
      resolveTarget fs cwd defaultDirectory url (some hint) now =
        (pathJoin (pathResolveFrom cwd hint) (extractRepoNameFromUrl url now),
         extractRepoNameFromUrl url now)) ∧
    ((fs.existsSync (pathResolveFrom cwd hint) = false ∨
      fs.isDirectory (pathResolveFrom cwd hint) = false) →
      resolveTarget fs cwd defaultDirectory url (some hint) now =
        (pathResolveFrom cwd hint, pathBasename (pathResolveFrom cwd hint))) := by
  have hres : resolveTarget fs cwd defaultDirectory url (some hint) now =
      resolveHintDir fs url now (pathResolveFrom cwd hint) := by
    cases h : pathIsAbsolute hint with
    | true => simp [resolveTarget, pathResolveFrom, h]
    | false => simp [resolveTarget, pathResolveFrom, h]
  rw [hres]
  refine ⟨fun he hd hg => ?_, fun he hd hg => ?_, fun hnd => ?_⟩
  · simp [resolveHintDir, he, hd, hg]
  · simp [resolveHintDir, he, hd, hg]
  · rcases hnd with hnd | hnd <;> simp [resolveHintDir, hnd]

/-- Witness for the C4 theorem: on plainDirFs, the hint /existing/plainDir is
an existing directory without a version-control marker, so with the URL of
the demo repository the resolved fullPath is /existing/plainDir/demo. -/
theorem resolveTarget_decision_tree_witness :
    resolveTarget plainDirFs "/cwd" "/base" "https://example/org/demo.git"
      (some "/existing/plainDir") 7 = ("/existing/plainDir/demo", "demo") := by
  have h := (resolveTarget_decision_tree plainDirFs "/cwd" "/base"
    "https://example/org/demo.git" "/existing/plainDir" 7).2.1
  have hrw := h (by decide) (by decide) (by decide)
  rw [hrw]
  decide

/-- takeWhile over an append keeps exactly the left part when every left
element satisfies the predicate and the first right element does not. -/
theorem takeWhile_all_append (p : Char → Bool) (xs : List Char) (y : Char)
    (ys : List Char) (h : ∀ x ∈ xs, p x = true) (hy : p y = false) :
    (xs ++ y :: ys).takeWhile p = xs := by
  induction xs with
  | nil => simp [List.takeWhile_cons, hy]
  | cons a t ih =>
    have ha : p a = true := h a (List.mem_cons_self a t)
    simp only [List.cons_append, List.takeWhile_cons, ha, if_true]
    rw [ih (fun x hx => h x (List.mem_cons_of_mem a hx))]

/-- The characters after the last slash of l ++ slash ++ r are exactly r when
r is slash-free. -/
theorem afterLastSlash_append (l r : List Char) (hr : '/' ∉ r) :
    afterLastSlash (l ++ '/' :: r) = r := by
  unfold afterLastSlash
  have hrev : (l ++ '/' :: r).reverse = r.reverse ++ '/' :: l.reverse := by
    simp [List.reverse_append]
  rw [hrev, takeWhile_all_append _ _ _ _ ?_ (by simp), List.reverse_reverse]
  intro x hx
  have hxr : x ∈ r := List.mem_reverse.mp hx
  have : x ≠ '/' := fun hc => hr (hc ▸ hxr)
  simpa using this

/-- A character list of the form l ++ slash ++ r contains a slash. -/
theorem contains_slash_append (l r : List Char) :
    (l ++ '/' :: r).contains '/' = true :=
  List.elem_iff.mpr (by simp)

/-- stripDotGit removes exactly one trailing ".git" when a non-empty group
remains. -/
theorem stripDotGit_strip (name : List Char) (h : name ≠ []) :
    stripDotGit (name ++ ".git".data) = name := by
  have hdata : ".git".data = ['.', 'g', 'i', 't'] := rfl
  have hsuf : (".git".data.isSuffixOf (name ++ ".git".data)) = true :=
    List.isSuffixOf_iff_suffix.mpr ⟨name, rfl⟩
  have hp : 0 < name.length := List.length_pos.mpr h
  have hlen : 4 < (name ++ ".git".data).length := by
    rw [hdata]
    simp only [List.length_append, List.length_cons, List.length_nil]
    omega
  have hl : (name ++ ".git".data).length - 4 = name.length + 0 := by
    rw [hdata]
    simp only [List.length_append, List.length_cons, List.length_nil]
    omega
  unfold stripDotGit
  rw [if_pos hsuf, if_pos hlen, hl, List.take_append, List.take_zero,
    List.append_nil]

/-- stripDotGit keeps a segment that does not end in ".git". -/
theorem stripDotGit_keep (seg : List Char) (h : ¬ (".git".data <:+ seg)) :
    stripDotGit seg = seg := by
  have hs : (".git".data.isSuffixOf seg) = false := by
    cases hc : (".git".data.isSuffixOf seg) with
    | false => rfl
    | true => exact absurd (List.isSuffixOf_iff_suffix.mp hc) h
  unfold stripDotGit
  rw [hs]
  simp

/-- Claim C6: extractRepoNameFromUrl returns the URL's last path segment with
one trailing ".git" suffix stripped; a URL without a usable last segment (no
slash at all, or ending in a slash) yields the time-based fallback name; and
with no hint given, resolution of the demo URL yields repoName demo under the
default base directory. -/
theorem extractRepoName_last_segment :
    (∀ (p name : String) (now : Nat), name.data ≠ [] → '/' ∉ name.data →
        extractRepoNameFromUrl (p ++ "/" ++ name ++ ".git") now = name) ∧
    (∀ (p seg : String) (now : Nat), seg.data ≠ [] → '/' ∉ seg.data →
        ¬ (".git".data <:+ seg.data) →
        extractRepoNameFromUrl (p ++ "/" ++ seg) now = seg) ∧
    (∀ (url : String) (now : Nat), url.data.contains '/' = false →
        extractRepoNameFromUrl url now = "repo-" ++ toString now) ∧
    (∀ (p : String) (now : Nat),
        extractRepoNameFromUrl (p ++ "/") now = "repo-" ++ toString now) ∧
    (∀ (fs : FileSystem) (cwd : String) (now : Nat),
        resolveTarget fs cwd "/base" "https://example/org/demo.git" none now =
          ("/base/demo", "demo")) := by
  refine ⟨fun p name now hne hns => ?_, fun p seg now hne hns hng => ?_,
    fun url now hnc => ?_, fun p now => ?_, fun fs cwd now => ?_⟩
  · have hdata : (p ++ "/" ++ name ++ ".git").data =
        p.data ++ '/' :: (name.data ++ ".git".data) := by
      simp [String.data_append]
    have hrest : '/' ∉ name.data ++ ".git".data := by
      intro hc
      rcases List.mem_append.mp hc with hc | hc
      · exact hns hc
      · simp at hc
    have hne2 : (name.data ++ ".git".data).isEmpty = false := by
      cases hd : name.data with
      | nil => exact absurd hd hne
      | cons a t => simp [hd, List.isEmpty]
    unfold extractRepoNameFromUrl
    rw [hdata, afterLastSlash_append _ _ hrest, contains_slash_append, hne2]
    simp only [Bool.not_false, Bool.and_self, if_true]
    rw [stripDotGit_strip _ hne]
  · have hdata : (p ++ "/" ++ seg).data = p.data ++ '/' :: seg.data := by
      simp [String.data_append]
    have hne2 : seg.data.isEmpty = false := by
      cases hd : seg.data with
      | nil => exact absurd hd hne
      | cons a t => simp [List.isEmpty]
    unfold extractRepoNameFromUrl
    rw [hdata, afterLastSlash_append _ _ hns, contains_slash_append, hne2]
    simp only [Bool.not_false, Bool.and_self, if_true]
    rw [stripDotGit_keep _ hng]
  · unfold extractRepoNameFromUrl
    rw [hnc]
    simp
  · have hdata : (p ++ "/").data = p.data ++ '/' :: [] := by
      simp [String.data_append]
    have hseg : afterLastSlash (p.data ++ '/' :: []) = [] :=
      afterLastSlash_append _ _ (by simp)
    unfold extractRepoNameFromUrl
    rw [hdata, hseg]
    simp [List.isEmpty]
  · rfl

/-- Witness for the C6 theorem: the demo URL yields repo name demo, and a URL
with no slash falls back to the time-based name. -/
theorem extractRepoName_last_segment_witness :
    extractRepoNameFromUrl "https://example/org/demo.git" 3 = "demo" ∧
    extractRepoNameFromUrl "demo.git" 3 = "repo-3" := by
  constructor
  · have h := extractRepoName_last_segment.1 "https://example/org" "demo" 3
      (by decide) (by decide)
    have heq : ("https://example/org" : String) ++ "/" ++ "demo" ++ ".git" =
        "https://example/org/demo.git" := rfl
    rw [heq] at h
    exact h
  · have h := extractRepoName_last_segment.2.2.1 "demo.git" 3 (by decide)
    rw [h]
    rfl

/-- Claim C5: synchronization branches on existence of the resolved full
path. When it exists, the only operation is a pull against that path with its
reported statistics, and the branch option is ignored (the whole result is
the same as with no branch). When it does not exist, the parent directory is
created recursively exactly when missing, the URL is cloned into repoName
under the parent restricted to the branch when one is supplied, and a pull of
the fresh copy follows immediately before returning. -/
theorem cloneRepository_sync_branches {J : Type} (fs : FileSystem)
    (cwd defaultDirectory : String) (pull : String → PullSummary)
    (readFile : String → Option String) (parse : String → Option J)
    (serialize : J → String) (cloneUrl : String)
    (targetDirectory : Option String) (branch : Option String) (now : Nat) :
    (fs.existsSync (resolveTarget fs cwd defaultDirectory cloneUrl
        targetDirectory now).1 = true →
      (cloneRepository fs cwd defaultDirectory pull readFile parse serialize
          cloneUrl targetDirectory branch now).2 =
        [RepoAction.gitPull
          (resolveTarget fs cwd defaultDirectory cloneUrl targetDirectory now).1
          (pull (resolveTarget fs cwd defaultDirectory cloneUrl
            targetDirectory now).1)] ∧
      cloneRepository fs cwd defaultDirectory pull readFile parse serialize
          cloneUrl targetDirectory branch now =
        cloneRepository fs cwd defaultDirectory pull readFile parse serialize
          cloneUrl targetDirectory none now) ∧
    (fs.existsSync (resolveTarget fs cwd defaultDirectory cloneUrl
        targetDirectory now).1 = false →
      (cloneRepository fs cwd defaultDirectory pull readFile parse serialize
          cloneUrl targetDirectory branch now).2 =
        (if fs.existsSync (pathDirname (resolveTarget fs cwd defaultDirectory
            cloneUrl targetDirectory now).1) then []
         else [RepoAction.mkdirRecursive (pathDirname (resolveTarget fs cwd
            defaultDirectory cloneUrl targetDirectory now).1)]) ++
        [RepoAction.gitClone
            (pathDirname (resolveTarget fs cwd defaultDirectory cloneUrl
              targetDirectory now).1)
            cloneUrl
            (resolveTarget fs cwd defaultDirectory cloneUrl targetDirectory now).2
            (match branch with
             | some b => ["--branch", b]
             | none => []),
         RepoAction.gitPull
            (resolveTarget fs cwd defaultDirectory cloneUrl targetDirectory now).1
            (pull (resolveTarget fs cwd defaultDirectory cloneUrl
              targetDirectory now).1)]) := by
  constructor
  · intro hex
    unfold cloneRepository
    simp only [hex, if_true]
    constructor <;> first | rfl | trivial
  · intro hex
    unfold cloneRepository
    simp only [hex, Bool.false_eq_true, if_false]

/-- Witness for the C5 theorem: a filesystem where the resolved path of the
demo repository is missing but its parent exists produces exactly a clone of
the demo URL restricted to branch main followed by a pull of the fresh copy. -/
theorem cloneRepository_sync_branches_witness :
    (cloneRepository
        { existsSync := fun p => p == "/base", isDirectory := fun p => p == "/base" }
        "/cwd" "/base" (fun _ => { changes := 0, insertions := 0, deletions := 0, files := [] })
        (fun _ => none) (fun _ => (none : Option Unit)) (fun _ => "")
        "https://example/org/demo.git" none (some "main") 7).2 =
      [RepoAction.gitClone "/base" "https://example/org/demo.git" "demo"
          ["--branch", "main"],
       RepoAction.gitPull "/base/demo"
          { changes := 0, insertions := 0, deletions := 0, files := [] }] := by
  have h := (cloneRepository_sync_branches
    { existsSync := fun p => p == "/base", isDirectory := fun p => p == "/base" }
    "/cwd" "/base" (fun _ => { changes := 0, insertions := 0, deletions := 0, files := [] })
    (fun _ => none) (fun _ => (none : Option Unit)) (fun _ => "")
    "https://example/org/demo.git" none (some "main") 7).2 (by decide)
  rw [h]
  decide

/-- Claim C8: the manifest probe after synchronization. When the manifest
file is present and parses, the manifest content is its canonical
re-serialization; when absent, it is null; when present but unparseable it is
null and the synchronization still succeeds: the outcome path and the
performed operations of cloneRepository are the same whatever the codec or
the file content, so a malformed manifest never fails the operation. -/
theorem readWinCCOAPackageJson_probe {J : Type} (fs : FileSystem)
    (readFile : String → Option String) (parse : String → Option J)
    (serialize : J → String) (repositoryPath : String) :
    (fs.existsSync (pathJoin repositoryPath "package.winccoa.json") = false →
      readWinCCOAPackageJson fs readFile parse serialize repositoryPath = none) ∧
    (∀ content parsed,
      fs.existsSync (pathJoin repositoryPath "package.winccoa.json") = true →
      readFile (pathJoin repositoryPath "package.winccoa.json") = some content →
      parse content = some parsed →
      readWinCCOAPackageJson fs readFile parse serialize repositoryPath =
        some (serialize parsed)) ∧
    (∀ content,
      fs.existsSync (pathJoin repositoryPath "package.winccoa.json") = true →
      readFile (pathJoin repositoryPath "package.winccoa.json") = some content →
      parse content = none →
      readWinCCOAPackageJson fs readFile parse serialize repositoryPath = none) ∧
    (∀ (cwd defaultDirectory : String) (pull : String → PullSummary)
        (cloneUrl : String) (targetDirectory branch : Option String) (now : Nat)
        (readFile2 : String → Option String) (parse2 : String → Option J)
        (serialize2 : J → String),
      (cloneRepository fs cwd defaultDirectory pull readFile parse serialize
          cloneUrl targetDirectory branch now).1.path =
        (cloneRepository fs cwd defaultDirectory pull readFile2 parse2 serialize2
          cloneUrl targetDirectory branch now).1.path ∧
      (cloneRepository fs cwd defaultDirectory pull readFile parse serialize
          cloneUrl targetDirectory branch now).2 =
        (cloneRepository fs cwd defaultDirectory pull readFile2 parse2 serialize2
          cloneUrl targetDirectory branch now).2) := by
  refine ⟨fun hne => ?_, fun content parsed hex hread hparse => ?_,
    fun content hex hread hparse => ?_,
    fun cwd defaultDirectory pull cloneUrl targetDirectory branch now
      readFile2 parse2 serialize2 => ?_⟩
  · unfold readWinCCOAPackageJson
    simp [hne]
  · unfold readWinCCOAPackageJson
    simp [hex, hread, hparse]
  · unfold readWinCCOAPackageJson
    simp [hex, hread, hparse]
  · unfold cloneRepository
    cases hex : fs.existsSync (resolveTarget fs cwd defaultDirectory cloneUrl
        targetDirectory now).1 <;> simp [hex]

/-- Witness for the C8 theorem: a present but unparseable manifest yields a
null manifest content. -/
theorem readWinCCOAPackageJson_probe_witness :
    readWinCCOAPackageJson
        { existsSync := fun _ => true, isDirectory := fun _ => true }
        (fun _ => some "not json") (fun _ => (none : Option Unit)) (fun _ => "")
        "/base/demo" = none := by
  exact (readWinCCOAPackageJson_probe
    { existsSync := fun _ => true, isDirectory := fun _ => true }
    (fun _ => some "not json") (fun _ => (none : Option Unit)) (fun _ => "")
    "/base/demo").2.2.1 "not json" rfl rfl rfl

/-- Claim C1, counterexample: registering with two managers [A, B] where the
attachment of the first (A) throws leaves B unattempted: the attempted list
is exactly [A] and the failure propagates out of registration. This refutes
the claim that the attachments of subsequent managers are still attempted
after one fails. -/
theorem registerSubProject_aborts_after_throw :
    (registerSubProject (fun _ => Except.ok 0) (fun _ => Except.ok ())
        attachThrowsOnA "/proj/demo" cfgAB).1 = Except.error "attach failed" ∧
    (registerSubProject (fun _ => Except.ok 0) (fun _ => Except.ok ())
        attachThrowsOnA "/proj/demo" cfgAB).2 = [mgrA] ∧
    mgrB ∉ (registerSubProject (fun _ => Except.ok 0) (fun _ => Except.ok ())
        attachThrowsOnA "/proj/demo" cfgAB).2 := by
  refine ⟨rfl, rfl, by decide⟩

/-- Claim C1 as amended: manager attachment is sequential and in listed
order, but it is not best-effort: when registration and dependency
installation succeed and the attachments succeed for a first block of the
listed managers and then one attachment throws, exactly the managers up to
and including the throwing one were attempted, in listed order, the managers
after it are never attempted, and the error propagates as the result of
registerSubProject; when every attachment succeeds, all managers are
attempted in listed order and the registration result is returned. -/
theorem registerSubProject_sequential_abort
    (startRegisterSubProj : String → Except String Int)
    (installAndBuild : String → Except String Unit)
    (addManager : ManagerConfig → Except String Unit)
    (path : String) (config : AddonConfig) (ret : Int)
    (hreg : startRegisterSubProj path = Except.ok ret)
    (hinst : installAndBuild path = Except.ok ()) :
    (∀ ms, config.Managers = some ms →
      (∀ m ∈ ms, addManager m = Except.ok ()) →
      registerSubProject startRegisterSubProj installAndBuild addManager
        path config = (Except.ok ret, ms)) ∧
    (∀ ms1 m ms2 e, config.Managers = some (ms1 ++ m :: ms2) →
      (∀ x ∈ ms1, addManager x = Except.ok ()) →
      addManager m = Except.error e →
      registerSubProject startRegisterSubProj installAndBuild addManager
        path config = (Except.error e, ms1 ++ [m])) := by
  have hloop_ok : ∀ ms, (∀ m ∈ ms, addManager m = Except.ok ()) →
      attachLoop addManager ms = (ms, none) := by
    intro ms
    induction ms with
    | nil => intro _; rfl
    | cons a t ih =>
      intro h
      have ha := h a (List.mem_cons_self a t)
      unfold attachLoop
      rw [ha]
      simp only
      rw [ih (fun x hx => h x (List.mem_cons_of_mem a hx))]
  have hloop_err : ∀ ms1 m ms2 e, (∀ x ∈ ms1, addManager x = Except.ok ()) →
      addManager m = Except.error e →
      attachLoop addManager (ms1 ++ m :: ms2) = (ms1 ++ [m], some e) := by
    intro ms1
    induction ms1 with
    | nil =>
      intro m ms2 e _ hm
      simp [attachLoop, hm]
    | cons a t ih =>
      intro m ms2 e hok hm
      have ha := hok a (List.mem_cons_self a t)
      simp only [List.cons_append, attachLoop, ha]
      rw [List.append_eq, ih m ms2 e (fun x hx => hok x (List.mem_cons_of_mem a hx)) hm]
  constructor
  · intro ms hms hok
    unfold registerSubProject
    rw [hreg, hinst, hms]
    simp only [Option.getD_some]
    rw [hloop_ok ms hok]
  · intro ms1 m ms2 e hms hok hm
    unfold registerSubProject
    rw [hreg, hinst, hms]
    simp only [Option.getD_some]
    rw [hloop_err ms1 m ms2 e hok hm]

/-- Witness for the amended C1 theorem: with the [A, B] configuration and an
attachment collaborator that throws on B, registration attempts A then B in
order and stops with the propagated error. -/
theorem registerSubProject_sequential_abort_witness :
    registerSubProject (fun _ => Except.ok 0) (fun _ => Except.ok ())
        (fun m => if m.Name = "B" then Except.error "boom" else Except.ok ())
        "/proj/demo" cfgAB = (Except.error "boom", [mgrA, mgrB]) := by
  have h := (registerSubProject_sequential_abort (fun _ => Except.ok 0)
    (fun _ => Except.ok ())
    (fun m => if m.Name = "B" then Except.error "boom" else Except.ok ())
    "/proj/demo" cfgAB 0 rfl rfl).2 [mgrA] mgrB [] "boom" rfl
    (by intro x hx; rw [List.mem_singleton] at hx; subst hx; rfl) rfl
  rw [h]
  rfl

/-- Claim C2, counterexample: with discovered manifest directories [/a, /b]
and an install command failing in /a, the sibling directory /b is never
attempted: processing is not independent, the first Error-classified
(non-zero) failure aborts the remaining directories along with the overall
registration. -/
theorem installAndBuild_aborts_after_failure :
    (NodeInstaller.installAndBuild execFailsInDirA (fun _ => ["/a", "/b"])
        "/proj/demo").2 = ["/a"] ∧
    "/b" ∉ (NodeInstaller.installAndBuild execFailsInDirA (fun _ => ["/a", "/b"])
        "/proj/demo").2 ∧
    (NodeInstaller.installAndBuild execFailsInDirA (fun _ => ["/a", "/b"])
        "/proj/demo").1 =
      Except.error "npm install failed with code 1\nbuild error" := by
  refine ⟨rfl, by decide, rfl⟩

/-- Claim C2 as amended: the discovered directories are processed
sequentially in discovery order, but not independently: when install and
build succeed in a first block of directories and then a command fails
(non-zero exit, the only Error tier here), exactly the directories up to and
including the failing one were attempted, the remaining sibling directories
are never attempted, and the error propagates, aborting the registration;
when every command succeeds, all discovered directories are processed in
order; and a command fails exactly when its exit code is non-zero. -/
theorem installAndBuild_sequential_abort
    (exec : String → Option String → ExecOutcome)
    (findPackageDirs : String → List String) (projDir : String) :
    (∀ ds, findPackageDirs (projDir ++ "/javascript") = ds →
      (∀ x ∈ ds, NodeInstaller.runCommand exec "npm" ["install"] x = Except.ok () ∧
        NodeInstaller.runCommand exec "npx" ["tsc"] x = Except.ok ()) →
      NodeInstaller.installAndBuild exec findPackageDirs projDir =
        (Except.ok (), ds)) ∧
    (∀ ds1 d ds2 e, findPackageDirs (projDir ++ "/javascript") = ds1 ++ d :: ds2 →
      (∀ x ∈ ds1, NodeInstaller.runCommand exec "npm" ["install"] x = Except.ok () ∧
        NodeInstaller.runCommand exec "npx" ["tsc"] x = Except.ok ()) →
      NodeInstaller.runCommand exec "npm" ["install"] d = Except.error e →
      NodeInstaller.installAndBuild exec findPackageDirs projDir =
        (Except.error e, ds1 ++ [d])) ∧
    (∀ ds1 d ds2 e, findPackageDirs (projDir ++ "/javascript") = ds1 ++ d :: ds2 →
      (∀ x ∈ ds1, NodeInstaller.runCommand exec "npm" ["install"] x = Except.ok () ∧
        NodeInstaller.runCommand exec "npx" ["tsc"] x = Except.ok ()) →
      NodeInstaller.runCommand exec "npm" ["install"] d = Except.ok () →
      NodeInstaller.runCommand exec "npx" ["tsc"] d = Except.error e →
      NodeInstaller.installAndBuild exec findPackageDirs projDir =
        (Except.error e, ds1 ++ [d])) ∧
    (∀ cmd args cwd2,
      NodeInstaller.runCommand exec cmd args cwd2 = Except.ok () ↔
      (CommandExecutor.execute exec (String.intercalate " " (cmd :: args))
        (some cwd2)).exitCode = 0) := by
  have hok : ∀ ds,
      (∀ x ∈ ds, NodeInstaller.runCommand exec "npm" ["install"] x = Except.ok () ∧
        NodeInstaller.runCommand exec "npx" ["tsc"] x = Except.ok ()) →
      installAndBuildDirs exec ds = (Except.ok (), ds) := by
    intro ds
    induction ds with
    | nil => intro _; rfl
    | cons a t ih =>
      intro h
      have ha := h a (List.mem_cons_self a t)
      unfold installAndBuildDirs
      rw [ha.1, ha.2]
      simp only
      rw [ih (fun x hx => h x (List.mem_cons_of_mem a hx))]
  have herr1 : ∀ ds1 d ds2 e,
      (∀ x ∈ ds1, NodeInstaller.runCommand exec "npm" ["install"] x = Except.ok () ∧
        NodeInstaller.runCommand exec "npx" ["tsc"] x = Except.ok ()) →
      NodeInstaller.runCommand exec "npm" ["install"] d = Except.error e →
      installAndBuildDirs exec (ds1 ++ d :: ds2) = (Except.error e, ds1 ++ [d]) := by
    intro ds1
    induction ds1 with
    | nil =>
      intro d ds2 e _ hd
      simp [installAndBuildDirs, hd]
    | cons a t ih =>
      intro d ds2 e hok2 hd
      have ha := hok2 a (List.mem_cons_self a t)
      simp only [List.cons_append, installAndBuildDirs, ha.1, ha.2]
      rw [List.append_eq, ih d ds2 e (fun x hx => hok2 x (List.mem_cons_of_mem a hx)) hd]
  have herr2 : ∀ ds1 d ds2 e,
      (∀ x ∈ ds1, NodeInstaller.runCommand exec "npm" ["install"] x = Except.ok () ∧
        NodeInstaller.runCommand exec "npx" ["tsc"] x = Except.ok ()) →
      NodeInstaller.runCommand exec "npm" ["install"] d = Except.ok () →
      NodeInstaller.runCommand exec "npx" ["tsc"] d = Except.error e →
      installAndBuildDirs exec (ds1 ++ d :: ds2) = (Except.error e, ds1 ++ [d]) := by
    intro ds1
    induction ds1 with
    | nil =>
      intro d ds2 e _ hd1 hd2
      simp [installAndBuildDirs, hd1, hd2]
    | cons a t ih =>
      intro d ds2 e hok2 hd1 hd2
      have ha := hok2 a (List.mem_cons_self a t)
      simp only [List.cons_append, installAndBuildDirs, ha.1, ha.2]
      rw [List.append_eq,
        ih d ds2 e (fun x hx => hok2 x (List.mem_cons_of_mem a hx)) hd1 hd2]
  refine ⟨fun ds hds h => ?_, fun ds1 d ds2 e hds h hd => ?_,
    fun ds1 d ds2 e hds h hd1 hd2 => ?_, fun cmd args cwd2 => ?_⟩
  · unfold NodeInstaller.installAndBuild
    rw [hds, hok ds h]
  · unfold NodeInstaller.installAndBuild
    rw [hds, herr1 ds1 d ds2 e h hd]
  · unfold NodeInstaller.installAndBuild
    rw [hds, herr2 ds1 d ds2 e h hd1 hd2]
  · unfold NodeInstaller.runCommand
    constructor
    · intro h
      by_cases hz : (CommandExecutor.execute exec
          (String.intercalate " " (cmd :: args)) (some cwd2)).exitCode = 0
      · exact hz
      · simp only [hz, if_pos (by exact hz)] at h
        exact absurd h (by simp [hz])
    · intro hz
      simp [hz]

/-- Witness for the amended C2 theorem: with discovered directories [/a, /b]
and the install command failing in /a, installAndBuild attempts exactly /a
and aborts with the propagated error. -/
theorem installAndBuild_sequential_abort_witness :
    NodeInstaller.installAndBuild execFailsInDirA (fun _ => ["/a", "/b"])
        "/proj/demo" =
      (Except.error "npm install failed with code 1\nbuild error", ["/a"]) := by
  have h := (installAndBuild_sequential_abort execFailsInDirA
    (fun _ => ["/a", "/b"]) "/proj/demo").2.1 [] "/a" ["/b"]
    "npm install failed with code 1\nbuild error" rfl
    (by intro x hx; exact absurd hx (List.not_mem_nil x)) rfl
  rw [h]
  rfl

/-- Every requested page number is at least the starting page. -/
theorem listPagesAux_low {α β : Type} (pages : Nat → List α) (proj : α → β)
    (perPage : Nat) :
    ∀ fuel page j, j ∈ (listPagesAux pages proj perPage page fuel).2 → page ≤ j := by
  intro fuel
  induction fuel with
  | zero => intro page j hj; simp [listPagesAux] at hj
  | succ n ih =>
    intro page j hj
    by_cases h : (pages page).length = perPage
    · simp only [listPagesAux, h, if_true, List.mem_cons] at hj
      rcases hj with hj | hj
      · omega
      · have := ih (page + 1) j hj
        omega
    · simp only [listPagesAux, h, if_false, List.mem_singleton] at hj
      omega

/-- The request count never exceeds the fuel, the requested pages are the
consecutive block starting at the current page, and the accumulated records
are the concatenation of the projected requested pages in fetch order. -/
theorem listPagesAux_shape {α β : Type} (pages : Nat → List α) (proj : α → β)
    (perPage : Nat) :
    ∀ fuel page,
      (listPagesAux pages proj perPage page fuel).2.length ≤ fuel ∧
      (listPagesAux pages proj perPage page fuel).2 =
        List.range' page (listPagesAux pages proj perPage page fuel).2.length ∧
      (listPagesAux pages proj perPage page fuel).1 =
        ((listPagesAux pages proj perPage page fuel).2.map
          (fun i => (pages i).map proj)).flatten := by
  intro fuel
  induction fuel with
  | zero => intro page; refine ⟨by simp [listPagesAux], by simp [listPagesAux], by simp [listPagesAux]⟩
  | succ n ih =>
    intro page
    by_cases h : (pages page).length = perPage
    · have iha := (ih (page + 1)).1
      have ihb := (ih (page + 1)).2.1
      have ihc := (ih (page + 1)).2.2
      refine ⟨?_, ?_, ?_⟩
      · simp only [listPagesAux, h, if_true, List.length_cons]
        omega
      · simp only [listPagesAux, h, if_true, List.length_cons]
        rw [List.range'_succ]
        exact congrArg (page :: ·) ihb
      · simp only [listPagesAux, h, if_true, List.map_cons, List.flatten]
        exact congrArg ((pages page).map proj ++ ·) ihc
    · refine ⟨?_, ?_, ?_⟩ <;> simp [listPagesAux, h, List.range'_succ]

/-- After a short page, no further page is requested: any requested page
whose result is not exactly full is the maximum of the requested pages. -/
theorem listPagesAux_stop {α β : Type} (pages : Nat → List α) (proj : α → β)
    (perPage : Nat) :
    ∀ fuel page i, i ∈ (listPagesAux pages proj perPage page fuel).2 →
      (pages i).length ≠ perPage →
      ∀ j ∈ (listPagesAux pages proj perPage page fuel).2, j ≤ i := by
  intro fuel
  induction fuel with
  | zero => intro page i hi; simp [listPagesAux] at hi
  | succ n ih =>
    intro page i hi hne j hj
    by_cases h : (pages page).length = perPage
    · simp only [listPagesAux, h, if_true, List.mem_cons] at hi hj
      rcases hi with hi | hi
      · exact absurd (hi ▸ h) hne
      · rcases hj with hj | hj
        · have := listPagesAux_low pages proj perPage n (page + 1) i hi
          omega
        · exact ih (page + 1) i hi hne j hj
    · simp only [listPagesAux, h, if_false, List.mem_singleton] at hi hj
      omega

/-- With every page in reach exactly full, all fuel is consumed: the
requested pages are the full consecutive block. -/
theorem listPagesAux_full {α β : Type} (pages : Nat → List α) (proj : α → β)
    (perPage : Nat) :
    ∀ fuel page, (∀ i, page ≤ i → i < page + fuel → (pages i).length = perPage) →
      (listPagesAux pages proj perPage page fuel).2 = List.range' page fuel := by
  intro fuel
  induction fuel with
  | zero => intro page _; simp [listPagesAux]
  | succ n ih =>
    intro page hfull
    have h : (pages page).length = perPage := hfull page (Nat.le_refl page) (by omega)
    simp only [listPagesAux, h, if_true]
    rw [List.range'_succ]
    exact congrArg (page :: ·) (ih (page + 1) (fun i h1 h2 => hfull i (by omega) (by omega)))

/-- Claim C7: listOrganizationRepositories pages sequentially from page 1,
concatenating projected pages in fetch order; it never issues more than
maxPages requests (default 10), even when every page is full, in which case
it requests exactly pages 1..maxPages; and once a page returns fewer than
perPage entries (default 100) no later page is ever requested. -/
theorem listOrgRepos_pagination {α β : Type} (pages : Nat → List α)
    (proj : α → β) (perPage maxPages : Option Nat) :
    (listOrganizationRepositories pages proj perPage maxPages).2.length ≤
      maxPages.getD 10 ∧
    (listOrganizationRepositories pages proj perPage maxPages).2 =
      List.range' 1
        (listOrganizationRepositories pages proj perPage maxPages).2.length ∧
    (listOrganizationRepositories pages proj perPage maxPages).1 =
      ((listOrganizationRepositories pages proj perPage maxPages).2.map
        (fun i => (pages i).map proj)).flatten ∧
    (∀ i, i ∈ (listOrganizationRepositories pages proj perPage maxPages).2 →
      (pages i).length < perPage.getD 100 →
      ∀ j ∈ (listOrganizationRepositories pages proj perPage maxPages).2, j ≤ i) ∧
    ((∀ i, 1 ≤ i → i ≤ maxPages.getD 10 → (pages i).length = perPage.getD 100) →
      (listOrganizationRepositories pages proj perPage maxPages).2 =
        List.range' 1 (maxPages.getD 10)) := by
  have hshape := listPagesAux_shape pages proj (perPage.getD 100)
    (maxPages.getD 10) 1
  refine ⟨hshape.1, hshape.2.1, hshape.2.2, ?_, ?_⟩
  · intro i hi hlt j hj
    exact listPagesAux_stop pages proj (perPage.getD 100) (maxPages.getD 10) 1 i
      hi (Nat.ne_of_lt hlt) j hj
  · intro hfull
    exact listPagesAux_full pages proj (perPage.getD 100) (maxPages.getD 10) 1
      (fun i h1 h2 => hfull i h1 (by omega))

/-- Witness for the C7 theorem: a remote with three one-element pages under
the default perPage 100 requests only page 1 and returns its projection. -/
theorem listOrgRepos_pagination_witness :
    (listOrganizationRepositories (fun _ => [7]) (fun n : Nat => n + 1)
        none none).2 = [1] ∧
    (listOrganizationRepositories (fun _ => [7]) (fun n : Nat => n + 1)
        none none).1 = [8] ∧
    ∀ j ∈ (listOrganizationRepositories (fun _ => [7]) (fun n : Nat => n + 1)
        none none).2, j ≤ 1 := by
  refine ⟨rfl, rfl, ?_⟩
  exact (listOrgRepos_pagination (fun _ => [7]) (fun n : Nat => n + 1)
    none none).2.2.2.1 1 (by decide) (by decide)
